import Mathlib

/-!
Verification of the width-measurement and alignment core of a prettytable
fork (`src/utils.rs`): the ANSI-escape-aware `display_width` scanner, the
`print_align` field aligner, and the `StringWriter` sink.

The Rust code is embedded shallowly: characters are Lean `Char`s, strings
are `List Char`, bytes are `Nat`s below 256, `usize` arithmetic is `Nat`
arithmetic (all quantities involved are small), and a panicking
`assert!` is modelled by an `Option` result (`none` = panic).
-/

namespace PrettyTableUtils

/-- Modelled from the spec: the Raw Width Oracle collaborator
(`unicode_width`'s `UnicodeWidthChar::width`), which is not part of
`src/`.  Per the spec it is "zero for combining/zero-width characters,
two for wide characters, one otherwise", control characters (including
ESC) having zero width.  The wide/zero-width ranges below are a
representative excerpt of the standard East-Asian-width table; every
concrete input in this development is ASCII, where the table is exact:
C0/C1 controls and DEL are 0, printable ASCII is 1. -/
def charWidth (c : Char) : Nat :=
  let n := c.toNat
  if n < 0x20 then 0
  else if n < 0x7f then 1
  else if n < 0xa0 then 0
  else if 0x300 ≤ n ∧ n ≤ 0x36f then 0
  else if 0x200b ≤ n ∧ n ≤ 0x200f then 0
  else if 0x1100 ≤ n ∧ n ≤ 0x115f then 2
  else if 0x2e80 ≤ n ∧ n ≤ 0x303e then 2
  else if 0x3041 ≤ n ∧ n ≤ 0x4dbf then 2
  else if 0x4e00 ≤ n ∧ n ≤ 0x9fff then 2
  else if 0xac00 ≤ n ∧ n ≤ 0xd7a3 then 2
  else if 0xf900 ≤ n ∧ n ≤ 0xfaff then 2
  else if 0xfe30 ≤ n ∧ n ≤ 0xfe4f then 2
  else if 0xff00 ≤ n ∧ n ≤ 0xff60 then 2
  else if 0xffe0 ≤ n ∧ n ≤ 0xffe6 then 2
  else 1

/-- `UnicodeWidthStr::width`: the whole-string width of the oracle, the sum
of the per-character widths (the spec's §6 contract makes this the
defining property of the collaborator). -/
def strWidth (s : List Char) : Nat :=
  (s.map charWidth).sum

/-- The `State` enumeration local to `display_width` in `src/utils.rs`. -/
inductive ScanState where
  /-- We are not inside any terminal escape. -/
  | Normal
  /-- We have just seen a `\u{1b}`. -/
  | EscapeChar
  /-- We have just seen a `[`. -/
  | OpenBracket
  /-- We just ended the escape by seeing an `m`. -/
  | AfterEscape
  /-- We are inside an OSC sequence: `ESC ] ...` -/
  | Osc
  /-- We saw ESC inside an OSC sequence, need to check whether `\` follows. -/
  | OscEscapeChar
  deriving DecidableEq, Repr

/-- `if UnicodeWidthChar::width(c).unwrap_or(0) > 0 { hidden += 1 }`:
the amount added to `hidden` for one character counted as escape payload. -/
def hiddenOf (c : Char) : Nat :=
  if 0 < charWidth c then 1 else 0

/-- One iteration of the `for c in text.chars()` loop of `display_width`:
the `match state` block, transcribed arm by arm from `src/utils.rs`. -/
def scanStep (state : ScanState) (hidden : Nat) (c : Char) : ScanState × Nat :=
  match state with
  | .Normal =>
      (if c = '\x1b' then .EscapeChar else .Normal, hidden)
  | .EscapeChar =>
      if c = '[' then (.OpenBracket, hidden)
      else if c = ']' then (.Osc, hidden + 2)
      else (.Normal, hidden)
  | .OpenBracket =>
      ((if c = 'm' then .AfterEscape
        else if c = '\x1b' then .EscapeChar
        else .OpenBracket),
       hidden + hiddenOf c)
  | .AfterEscape =>
      (.Normal, hidden + hiddenOf c)
  | .Osc =>
      ((if c = '\x1b' then .OscEscapeChar else .Osc), hidden + hiddenOf c)
  | .OscEscapeChar =>
      if c = '\\' then (.Normal, hidden + 2)
      else (.Osc, hidden + hiddenOf c)

/-- The loop of `display_width`, started from an arbitrary state and
hidden count. -/
def scanFrom : ScanState → Nat → List Char → ScanState × Nat
  | st, h, [] => (st, h)
  | st, h, c :: s => scanFrom (scanStep st h c).1 (scanStep st h c).2 s

/-- The loop of `display_width` as run by the code: from `State::Normal`
with `hidden = 0`. -/
def scan (s : List Char) : ScanState × Nat :=
  scanFrom .Normal 0 s

/-- `display_width` from `src/utils.rs`.  The final
`assert!(width >= hidden)` is modelled by returning `none` when it would
fail (a panic); otherwise the result is `width - hidden`. -/
def display_width (text : List Char) : Option Nat :=
  let width := strWidth text
  let hidden := (scan text).2
  if hidden ≤ width then some (width - hidden) else none

/-- Modelled from the spec: the `Alignment` enumeration of the
repository's format module (`src/format.rs` is not under `src/`; its
three variants are pinned by the `match align` in `print_align`).
"Pure value, no behavior beyond selecting a fill-split policy." -/
inductive Alignment where
  | LEFT
  | CENTER
  | RIGHT
  deriving DecidableEq, Repr

/-- `fill as u8`: Rust's `char as u8` cast keeps the low 8 bits of the
scalar value. -/
def fillByte (fill : Char) : Nat :=
  fill.toNat % 256

/-- The UTF-8 bytes of the scalar value `n`. -/
def utf8EncodeNat (n : Nat) : List Nat :=
  if n < 0x80 then [n]
  else if n < 0x800 then [0xc0 + n / 0x40, 0x80 + n % 0x40]
  else if n < 0x10000 then
    [0xe0 + n / 0x1000, 0x80 + n / 0x40 % 0x40, 0x80 + n % 0x40]
  else
    [0xf0 + n / 0x40000, 0x80 + n / 0x1000 % 0x40,
     0x80 + n / 0x40 % 0x40, 0x80 + n % 0x40]

/-- The UTF-8 bytes of one character (what Rust's `str` stores per
`char`); standard UTF-8, modelling `text.as_bytes()`. -/
def utf8EncodeChar (c : Char) : List Nat :=
  utf8EncodeNat c.toNat

/-- `text.as_bytes()`: the UTF-8 bytes of a string. -/
def utf8Encode : List Char → List Nat
  | [] => []
  | c :: s => utf8EncodeChar c ++ utf8Encode s

/-- `print_align` from `src/utils.rs`.  The sink is modelled by returning
the emitted byte sequence; `none` models the panic of the
`display_width` call.  Mirrors the code: `nfill = size - text_len` when
`text_len < size` else `0`; left fill `n` selected by alignment; after
the left fill the code does `nfill -= n`, and the trailing fill is
emitted only when the remainder is positive and `skip_right_fill` is
not set. -/
def print_align (align : Alignment) (text : List Char) (fill : Char)
    (size : Nat) (skip_right_fill : Bool) : Option (List Nat) :=
  match display_width text with
  | none => none
  | some text_len =>
    let nfill := if text_len < size then size - text_len else 0
    let n := match align with
      | .LEFT => 0
      | .RIGHT => nfill
      | .CENTER => nfill / 2
    let rest := nfill - n
    some (List.replicate n (fillByte fill) ++ utf8Encode text ++
          (if 0 < rest ∧ skip_right_fill = false
           then List.replicate rest (fillByte fill) else []))

/-- `StringWriter` from `src/utils.rs`: accumulates decoded text. -/
structure StringWriter where
  string : List Char
  deriving DecidableEq, Repr

/-- `StringWriter::new()`. -/
def StringWriter.new : StringWriter :=
  ⟨[]⟩

/-- Is `b` a UTF-8 continuation byte (`0x80..=0xBF`)? -/
def isCont (b : Nat) : Prop :=
  0x80 ≤ b ∧ b < 0xc0

instance (b : Nat) : Decidable (isCont b) :=
  inferInstanceAs (Decidable (_ ∧ _))

/-- Modelled from the spec: one step of the decoding performed by
`str::from_utf8` (standard-library collaborator, not part of `src/`):
decode the first scalar value of a strict UTF-8 stream, rejecting
overlong forms, surrogates and values beyond `0x10FFFF`; return the
character and the remaining bytes. -/
def decode1 : List Nat → Option (Char × List Nat)
  | [] => none
  | b₁ :: t =>
    if b₁ < 0x80 then some (Char.ofNat b₁, t)
    else if b₁ < 0xc2 then none
    else if b₁ < 0xe0 then
      match t with
      | b₂ :: t₂ =>
        if isCont b₂ then
          some (Char.ofNat ((b₁ - 0xc0) * 0x40 + (b₂ - 0x80)), t₂)
        else none
      | [] => none
    else if b₁ < 0xf0 then
      match t with
      | b₂ :: b₃ :: t₃ =>
        if isCont b₂ ∧ isCont b₃ ∧ (b₁ = 0xe0 → 0xa0 ≤ b₂) ∧
            (b₁ = 0xed → b₂ < 0xa0) then
          some (Char.ofNat ((b₁ - 0xe0) * 0x1000 +
            (b₂ - 0x80) * 0x40 + (b₃ - 0x80)), t₃)
        else none
      | _ => none
    else if b₁ < 0xf5 then
      match t with
      | b₂ :: b₃ :: b₄ :: t₄ =>
        if isCont b₂ ∧ isCont b₃ ∧ isCont b₄ ∧ (b₁ = 0xf0 → 0x90 ≤ b₂) ∧
            (b₁ = 0xf4 → b₂ < 0x90) then
          some (Char.ofNat ((b₁ - 0xf0) * 0x40000 +
            (b₂ - 0x80) * 0x1000 + (b₃ - 0x80) * 0x40 + (b₄ - 0x80)), t₄)
        else none
      | _ => none
    else none

/-- The decoding loop, with explicit fuel (each step consumes at least
one byte, so `d.length` fuel always suffices). -/
def utf8DecodeFuel : Nat → List Nat → Option (List Char)
  | _, [] => some []
  | 0, _ :: _ => none
  | fuel + 1, b :: t =>
    match decode1 (b :: t) with
    | none => none
    | some (c, rest) => (utf8DecodeFuel fuel rest).map (fun s => c :: s)

/-- Modelled from the spec: the full decoding performed by
`str::from_utf8`: repeatedly decode one character; fail if any step
fails. -/
def utf8Decode (d : List Nat) : Option (List Char) :=
  utf8DecodeFuel d.length d

/-- A byte sequence is valid UTF-8 exactly when it is the encoding of
some character sequence. -/
def Utf8Valid (d : List Nat) : Prop :=
  ∃ s : List Char, utf8Encode s = d

/-- `<StringWriter as Write>::write` from `src/utils.rs`: decode the
input bytes; on failure return the error (`none`) leaving the
accumulated string untouched; on success push the decoded text and
return `Ok(data.len())`. -/
def StringWriter.write (w : StringWriter) (data : List Nat) :
    StringWriter × Option Nat :=
  match utf8Decode data with
  | none => (w, none)
  | some s => (⟨w.string ++ s⟩, some data.length)

/-- Remove every trailing occurrence of byte `b`. -/
def rstrip (b : Nat) (l : List Nat) : List Nat :=
  (l.reverse.dropWhile (fun x => x == b)).reverse

/-- Remove every leading occurrence of byte `b`. -/
def lstrip (b : Nat) (l : List Nat) : List Nat :=
  l.dropWhile (fun x => x == b)

/-! ## Scanner lemmas -/

lemma scanFrom_append (st : ScanState) (h : Nat) (p q : List Char) :
    scanFrom st h (p ++ q) =
      scanFrom (scanFrom st h p).1 (scanFrom st h p).2 q := by
  induction p generalizing st h with
  | nil => rfl
  | cons c p ih =>
    simp only [List.cons_append, scanFrom]
    exact ih _ _

lemma scanFrom_no_esc (s : List Char) (n : Nat) (h : ∀ c ∈ s, c ≠ '\x1b') :
    scanFrom ScanState.Normal n s = (ScanState.Normal, n) := by
  induction s generalizing n with
  | nil => rfl
  | cons c s ih =>
    have hc : ¬ c = '\x1b' := h c (List.mem_cons_self c s)
    simp only [scanFrom, scanStep, if_neg hc]
    exact ih n (fun d hd => h d (List.mem_cons_of_mem c hd))

/-! ## Claims about the width scanner -/

/-- Claim C1: the spec asserts that for every input string `display_width`
returns without panicking with `0 ≤ hidden ≤ width`.  The code refutes
it: on the truncated OSC opener `"\x1b]"` the scanner charges
`hidden += 2` for `ESC ]` although ESC has zero width, so the hidden
count (2) exceeds the raw width (1) and the final
`assert!(width >= hidden)` fails — `display_width` panics (modelled as
`none`). -/
theorem display_width_assert_fails_on_truncated_osc :
    strWidth "\x1b]".data = 1 ∧ (scan "\x1b]".data).2 = 2 ∧
      display_width "\x1b]".data = none := by
  refine ⟨by decide, by decide, by decide⟩

/-- Claim C2: the spec asserts that `display_width` of the
OSC-hyperlink-wrapped label equals the width of the bare label (9 for
`"link text"`).  The code refutes it: each OSC block over-charges the
hidden count by 2 (it adds 2 at `ESC ]` and 2 at `ESC \` although the
two ESC characters have zero width), so the example evaluates to 5,
not 9 — contradicting the repository's own `display_width_hyperlinks`
test. -/
theorem display_width_hyperlink_mismatch :
    display_width "\x1b]8;;https://example.com\x1b\\link text\x1b]8;;\x1b\\".data
        = some 5 ∧
      display_width "link text".data = some 9 := by
  refine ⟨by decide, by decide⟩

/-- Claim C3: the spec asserts that `display_width` of a CSI-colored
string equals the width with the `ESC [ .. m` sequences stripped (5 for
`"\x1b[31mHello\x1b[0m"`).  The code refutes it: the `[` of a CSI
sequence is never counted as hidden while the character *after* the
terminating `m` is, so the trailing reset sequence leaves one
uncompensated visible column and the example evaluates to 6, not 5. -/
theorem display_width_csi_mismatch :
    display_width "\x1b[31mHello\x1b[0m".data = some 6 ∧
      display_width "Hello".data = some 5 := by
  refine ⟨by decide, by decide⟩

/-- Claim C4: from state `AfterEscape`, every next character `c` sends the
scanner back to `Normal` and adds 1 to the hidden count exactly when `c`
has nonzero display width. -/
theorem afterEscape_transition (p : List Char) (c : Char)
    (h : (scan p).1 = ScanState.AfterEscape) :
    (scan (p ++ [c])).1 = ScanState.Normal ∧
      (scan (p ++ [c])).2 = (scan p).2 + (if 0 < charWidth c then 1 else 0) := by
  unfold scan at h ⊢
  rw [scanFrom_append]
  rcases hp : scanFrom ScanState.Normal 0 p with ⟨st, n⟩
  cases st <;> simp_all [scanFrom, scanStep, hiddenOf]

/-- Witness for C4 at the concrete prefix `"\x1b[m"` (which ends in state
`AfterEscape` with hidden count 1) and next character `x`. -/
theorem afterEscape_transition_witness :
    (scan ("\x1b[m".data ++ ['x'])).1 = ScanState.Normal ∧
      (scan ("\x1b[m".data ++ ['x'])).2 =
        (scan "\x1b[m".data).2 + (if 0 < charWidth 'x' then 1 else 0) :=
  afterEscape_transition "\x1b[m".data 'x' (by decide)

/-- Claim C5: on a string containing no ESC character the scanner stays in
`Normal`, the hidden count stays 0, and `display_width` equals the raw
oracle width. -/
theorem display_width_no_escape (s : List Char) (h : ∀ c ∈ s, c ≠ '\x1b') :
    scan s = (ScanState.Normal, 0) ∧ display_width s = some (strWidth s) := by
  have hs : scanFrom ScanState.Normal 0 s = (ScanState.Normal, 0) :=
    scanFrom_no_esc s 0 h
  refine ⟨hs, ?_⟩
  simp [display_width, scan, hs]

/-- Witness for C5 at the escape-free string `"Hello"`. -/
theorem display_width_no_escape_witness :
    scan "Hello".data = (ScanState.Normal, 0) ∧
      display_width "Hello".data = some (strWidth "Hello".data) :=
  display_width_no_escape "Hello".data (by decide)

/-! ## Trimming lemmas for the aligner round-trip -/

lemma dropWhile_replicate_append (b : Nat) (k : Nat) (ys : List Nat) :
    (List.replicate k b ++ ys).dropWhile (fun x => x == b) =
      ys.dropWhile (fun x => x == b) := by
  induction k with
  | zero => simp
  | succ k ih => simp [List.replicate_succ, List.dropWhile, ih]

lemma dropWhile_eq_self_of_head (b : Nat) (ys : List Nat)
    (h : ys.head? ≠ some b) :
    ys.dropWhile (fun x => x == b) = ys := by
  cases ys with
  | nil => rfl
  | cons a l =>
    have ha : (a == b) = false := by
      simpa using fun hab => h (by simp [hab])
    simp [List.dropWhile, ha]

lemma rstrip_append_replicate (b : Nat) (xs : List Nat) (k : Nat)
    (h : xs.getLast? ≠ some b) :
    rstrip b (xs ++ List.replicate k b) = xs := by
  unfold rstrip
  rw [List.reverse_append, List.reverse_replicate, dropWhile_replicate_append,
    dropWhile_eq_self_of_head, List.reverse_reverse]
  rw [List.head?_reverse]
  exact h

lemma lstrip_replicate_append (b : Nat) (k : Nat) (xs : List Nat)
    (h : xs.head? ≠ some b) :
    lstrip b (List.replicate k b ++ xs) = xs := by
  unfold lstrip
  rw [dropWhile_replicate_append, dropWhile_eq_self_of_head _ _ h]

lemma rstrip_append_ite (b : Nat) (xs : List Nat) (k : Nat) (c : Prop)
    [Decidable c] (h : xs.getLast? ≠ some b) :
    rstrip b (xs ++ if c then List.replicate k b else []) = xs := by
  split
  · exact rstrip_append_replicate _ _ _ h
  · have h0 := rstrip_append_replicate b xs 0 h
    rw [List.replicate_zero, List.append_nil] at h0
    rw [List.append_nil]
    exact h0

/-! ## Claims about the field aligner -/

/-- Claim C6: with CENTER alignment, `skip_right_fill = false`, a
single-byte fill character and a positive gap `size - w`, the output is
`(size - w) / 2` fill bytes, the text bytes, then the remaining
`size - w - (size - w) / 2` fill bytes (the odd column going to the
right). -/
theorem print_align_center_split (text : List Char) (fill : Char)
    (size w : Nat) (hw : display_width text = some w) (hlt : w < size)
    (hfill : fill.toNat < 256) :
    print_align Alignment.CENTER text fill size false =
      some (List.replicate ((size - w) / 2) fill.toNat ++ utf8Encode text ++
            List.replicate (size - w - (size - w) / 2) fill.toNat) := by
  have hb : fillByte fill = fill.toNat := Nat.mod_eq_of_lt hfill
  have hrest : 0 < size - w - (size - w) / 2 := by omega
  unfold print_align
  rw [hw]
  simp only [hb, if_pos hlt]
  rw [if_pos ⟨hrest, trivial⟩]

/-- Witness for C6: centering `"foo"` (width 3) in size 10 with fill `*`
puts 3 fill bytes on the left and 4 on the right. -/
theorem print_align_center_split_witness :
    print_align Alignment.CENTER "foo".data '*' 10 false =
      some (List.replicate ((10 - 3) / 2) (Char.toNat '*') ++
            utf8Encode "foo".data ++
            List.replicate (10 - 3 - (10 - 3) / 2) (Char.toNat '*')) :=
  print_align_center_split "foo".data '*' 10 3 (by decide) (by decide)
    (by decide)

/-- Claim C7 as stated is refuted by the code: `print_align` first calls
`display_width`, which panics on the truncated OSC opener `"\x1b]"`, so
LEFT-aligning that text with `skip_right_fill = true` emits nothing at
all rather than exactly the text. -/
theorem print_align_skip_cex :
    print_align Alignment.LEFT "\x1b]".data '*' 10 true ≠
      some (utf8Encode "\x1b]".data) := by
  decide

/-- Claim C7 (amended to texts on which `display_width` does not panic):
with `skip_right_fill = true` no fill is ever emitted after the text —
LEFT emits exactly the text, CENTER emits the left fill then the text,
and RIGHT output is identical to the output with the flag false. -/
theorem print_align_skip_right_fill (text : List Char) (fill : Char)
    (size w : Nat) (hw : display_width text = some w)
    (hfill : fill.toNat < 256) :
    print_align Alignment.LEFT text fill size true =
        some (utf8Encode text) ∧
      print_align Alignment.CENTER text fill size true =
        some (List.replicate ((if w < size then size - w else 0) / 2)
                fill.toNat ++ utf8Encode text) ∧
      print_align Alignment.RIGHT text fill size true =
        print_align Alignment.RIGHT text fill size false := by
  have hb : fillByte fill = fill.toNat := Nat.mod_eq_of_lt hfill
  unfold print_align
  rw [hw]
  refine ⟨by simp, by simp [hb], by simp⟩

/-- Witness for C7 at `"foo"`, fill `*`, size 10. -/
theorem print_align_skip_right_fill_witness :
    print_align Alignment.LEFT "foo".data '*' 10 true =
        some (utf8Encode "foo".data) ∧
      print_align Alignment.CENTER "foo".data '*' 10 true =
        some (List.replicate ((if 3 < 10 then 10 - 3 else 0) / 2)
                (Char.toNat '*') ++ utf8Encode "foo".data) ∧
      print_align Alignment.RIGHT "foo".data '*' 10 true =
        print_align Alignment.RIGHT "foo".data '*' 10 false :=
  print_align_skip_right_fill "foo".data '*' 10 3 (by decide) (by decide)

/-- Claim C8: when the target size is at most the display width of the
text, `print_align` emits exactly the text bytes with no fill on either
side, for every alignment and both values of `skip_right_fill`. -/
theorem print_align_oversize (text : List Char) (fill : Char)
    (size w : Nat) (hw : display_width text = some w) (hle : size ≤ w) :
    ∀ (align : Alignment) (skip : Bool),
      print_align align text fill size skip = some (utf8Encode text) := by
  intro align skip
  unfold print_align
  rw [hw]
  have hns : ¬ w < size := by omega
  cases align <;> simp [hns]

/-- Witness for C8: `"foo"` has width 3 and size 2 passes it through. -/
theorem print_align_oversize_witness :
    print_align Alignment.CENTER "foo".data '*' 2 true =
      some (utf8Encode "foo".data) :=
  print_align_oversize "foo".data '*' 2 3 (by decide) (by decide)
    Alignment.CENTER true

/-- Claim C9 as stated is refuted by the code: the round-trip fails when
the text itself ends with the fill character — LEFT-aligning `"foo*"`
in size 10 with fill `*` yields `"foo*******"`, and trimming trailing
`*` bytes gives back `"foo"`, not `"foo*"`. -/
theorem print_align_trim_roundtrip_cex :
    (print_align Alignment.LEFT "foo*".data '*' 10 false).map
        (rstrip (Char.toNat '*')) ≠
      some (utf8Encode "foo*".data) := by
  decide

/-- Claim C9 (amended to texts on which `display_width` does not panic
and whose byte encoding neither ends nor begins with the fill byte):
LEFT-aligning then trimming trailing fill bytes recovers the text, and
RIGHT-aligning then trimming leading fill bytes recovers the text. -/
theorem print_align_trim_roundtrip (text : List Char) (fill : Char)
    (size w : Nat) (hw : display_width text = some w)
    (hfill : fill.toNat < 256)
    (hlast : (utf8Encode text).getLast? ≠ some fill.toNat)
    (hhead : (utf8Encode text).head? ≠ some fill.toNat) :
    (print_align Alignment.LEFT text fill size false).map
        (rstrip fill.toNat) = some (utf8Encode text) ∧
      (print_align Alignment.RIGHT text fill size false).map
        (lstrip fill.toNat) = some (utf8Encode text) := by
  have hb : fillByte fill = fill.toNat := Nat.mod_eq_of_lt hfill
  unfold print_align
  rw [hw]
  constructor
  · simp only [hb, Option.map_some', List.replicate_zero, List.nil_append,
      Nat.sub_zero]
    rw [rstrip_append_ite _ _ _ _ hlast]
  · simp only [hb, Option.map_some', Nat.sub_self, lt_self_iff_false,
      false_and, if_false, List.append_nil]
    rw [lstrip_replicate_append _ _ _ hhead]

/-- Witness for C9 at `"foo"`, fill `*`, size 10. -/
theorem print_align_trim_roundtrip_witness :
    (print_align Alignment.LEFT "foo".data '*' 10 false).map
        (rstrip (Char.toNat '*')) = some (utf8Encode "foo".data) ∧
      (print_align Alignment.RIGHT "foo".data '*' 10 false).map
        (lstrip (Char.toNat '*')) = some (utf8Encode "foo".data) :=
  print_align_trim_roundtrip "foo".data '*' 10 3 (by decide) (by decide)
    (by decide) (by decide)

/-! ## UTF-8 correctness -/

lemma char_isValid (c : Char) : Nat.isValidChar c.toNat :=
  c.valid

lemma toNat_ofNat_valid (n : Nat) (h : n.isValidChar) :
    (Char.ofNat n).toNat = n := by
  unfold Char.ofNat
  rw [dif_pos h]
  rfl
lemma decode1_cons (b₁ : Nat) (t : List Nat) :
    decode1 (b₁ :: t) =
      (if b₁ < 0x80 then some (Char.ofNat b₁, t)
      else if b₁ < 0xc2 then none
      else if b₁ < 0xe0 then
        match t with
        | b₂ :: t₂ =>
          if isCont b₂ then
            some (Char.ofNat ((b₁ - 0xc0) * 0x40 + (b₂ - 0x80)), t₂)
          else none
        | [] => none
      else if b₁ < 0xf0 then
        match t with
        | b₂ :: b₃ :: t₃ =>
          if isCont b₂ ∧ isCont b₃ ∧ (b₁ = 0xe0 → 0xa0 ≤ b₂) ∧
              (b₁ = 0xed → b₂ < 0xa0) then
            some (Char.ofNat ((b₁ - 0xe0) * 0x1000 +
              (b₂ - 0x80) * 0x40 + (b₃ - 0x80)), t₃)
          else none
        | _ => none
      else if b₁ < 0xf5 then
        match t with
        | b₂ :: b₃ :: b₄ :: t₄ =>
          if isCont b₂ ∧ isCont b₃ ∧ isCont b₄ ∧ (b₁ = 0xf0 → 0x90 ≤ b₂) ∧
              (b₁ = 0xf4 → b₂ < 0x90) then
            some (Char.ofNat ((b₁ - 0xf0) * 0x40000 +
              (b₂ - 0x80) * 0x1000 + (b₃ - 0x80) * 0x40 + (b₄ - 0x80)), t₄)
          else none
        | _ => none
      else none) :=
  rfl

lemma utf8DecodeFuel_succ_cons (fuel b : Nat) (t : List Nat) :
    utf8DecodeFuel (fuel + 1) (b :: t) =
      (match decode1 (b :: t) with
      | none => none
      | some (c, rest) => (utf8DecodeFuel fuel rest).map (fun s => c :: s)) :=
  rfl

lemma encodeChar_ofNat_ascii (b : Nat) (h : b < 0x80) :
    utf8EncodeChar (Char.ofNat b) = [b] := by
  have hval : Nat.isValidChar b := Or.inl (by omega)
  rw [utf8EncodeChar, toNat_ofNat_valid _ hval, utf8EncodeNat, if_pos h]

lemma encodeChar_ofNat_two (b₁ b₂ : Nat) (h1 : 0xc2 ≤ b₁) (h2 : b₁ < 0xe0)
    (hc : isCont b₂) :
    utf8EncodeChar (Char.ofNat ((b₁ - 0xc0) * 0x40 + (b₂ - 0x80))) =
      [b₁, b₂] := by
  obtain ⟨hca, hcb⟩ := hc
  have hval : Nat.isValidChar ((b₁ - 0xc0) * 0x40 + (b₂ - 0x80)) :=
    Or.inl (by omega)
  rw [utf8EncodeChar, toNat_ofNat_valid _ hval, utf8EncodeNat,
    if_neg (by omega), if_pos (by omega)]
  have e1 : 0xc0 + ((b₁ - 0xc0) * 0x40 + (b₂ - 0x80)) / 0x40 = b₁ := by
    omega
  have e2 : 0x80 + ((b₁ - 0xc0) * 0x40 + (b₂ - 0x80)) % 0x40 = b₂ := by
    omega
  rw [e1, e2]

lemma encodeChar_ofNat_three (b₁ b₂ b₃ : Nat) (h1 : 0xe0 ≤ b₁)
    (h2 : b₁ < 0xf0) (hc₂ : isCont b₂) (hc₃ : isCont b₃)
    (he : b₁ = 0xe0 → 0xa0 ≤ b₂) (hd : b₁ = 0xed → b₂ < 0xa0) :
    utf8EncodeChar (Char.ofNat ((b₁ - 0xe0) * 0x1000 +
        (b₂ - 0x80) * 0x40 + (b₃ - 0x80))) = [b₁, b₂, b₃] := by
  obtain ⟨hc2a, hc2b⟩ := hc₂
  obtain ⟨hc3a, hc3b⟩ := hc₃
  have hge : 0x800 ≤ (b₁ - 0xe0) * 0x1000 + (b₂ - 0x80) * 0x40 + (b₃ - 0x80) := by
    by_cases hb0 : b₁ = 0xe0
    · have := he hb0
      omega
    · omega
  have hval : Nat.isValidChar ((b₁ - 0xe0) * 0x1000 +
      (b₂ - 0x80) * 0x40 + (b₃ - 0x80)) := by
    by_cases hbd : b₁ = 0xed
    · have := hd hbd
      exact Or.inl (by omega)
    · by_cases hbc : b₁ ≤ 0xec
      · exact Or.inl (by omega)
      · exact Or.inr ⟨by omega, by omega⟩
  rw [utf8EncodeChar, toNat_ofNat_valid _ hval, utf8EncodeNat,
    if_neg (by omega), if_neg (by omega), if_pos (by omega)]
  have e1 : 0xe0 + ((b₁ - 0xe0) * 0x1000 + (b₂ - 0x80) * 0x40 +
      (b₃ - 0x80)) / 0x1000 = b₁ := by
    omega
  have e2 : 0x80 + ((b₁ - 0xe0) * 0x1000 + (b₂ - 0x80) * 0x40 +
      (b₃ - 0x80)) / 0x40 % 0x40 = b₂ := by
    omega
  have e3 : 0x80 + ((b₁ - 0xe0) * 0x1000 + (b₂ - 0x80) * 0x40 +
      (b₃ - 0x80)) % 0x40 = b₃ := by
    omega
  rw [e1, e2, e3]

lemma encodeChar_ofNat_four (b₁ b₂ b₃ b₄ : Nat) (h1 : 0xf0 ≤ b₁)
    (h2 : b₁ < 0xf5) (hc₂ : isCont b₂) (hc₃ : isCont b₃) (hc₄ : isCont b₄)
    (he : b₁ = 0xf0 → 0x90 ≤ b₂) (hd : b₁ = 0xf4 → b₂ < 0x90) :
    utf8EncodeChar (Char.ofNat ((b₁ - 0xf0) * 0x40000 +
        (b₂ - 0x80) * 0x1000 + (b₃ - 0x80) * 0x40 + (b₄ - 0x80))) =
      [b₁, b₂, b₃, b₄] := by
  obtain ⟨hc2a, hc2b⟩ := hc₂
  obtain ⟨hc3a, hc3b⟩ := hc₃
  obtain ⟨hc4a, hc4b⟩ := hc₄
  have hge : 0x10000 ≤ (b₁ - 0xf0) * 0x40000 + (b₂ - 0x80) * 0x1000 +
      (b₃ - 0x80) * 0x40 + (b₄ - 0x80) := by
    by_cases hb0 : b₁ = 0xf0
    · have := he hb0
      omega
    · omega
  have hlt : (b₁ - 0xf0) * 0x40000 + (b₂ - 0x80) * 0x1000 +
      (b₃ - 0x80) * 0x40 + (b₄ - 0x80) < 0x110000 := by
    by_cases hb4 : b₁ = 0xf4
    · have := hd hb4
      omega
    · omega
  have hval : Nat.isValidChar ((b₁ - 0xf0) * 0x40000 +
      (b₂ - 0x80) * 0x1000 + (b₃ - 0x80) * 0x40 + (b₄ - 0x80)) :=
    Or.inr ⟨by omega, hlt⟩
  rw [utf8EncodeChar, toNat_ofNat_valid _ hval, utf8EncodeNat,
    if_neg (by omega), if_neg (by omega), if_neg (by omega)]
  have e1 : 0xf0 + ((b₁ - 0xf0) * 0x40000 + (b₂ - 0x80) * 0x1000 +
      (b₃ - 0x80) * 0x40 + (b₄ - 0x80)) / 0x40000 = b₁ := by
    omega
  have e2 : 0x80 + ((b₁ - 0xf0) * 0x40000 + (b₂ - 0x80) * 0x1000 +
      (b₃ - 0x80) * 0x40 + (b₄ - 0x80)) / 0x1000 % 0x40 = b₂ := by
    omega
  have e3 : 0x80 + ((b₁ - 0xf0) * 0x40000 + (b₂ - 0x80) * 0x1000 +
      (b₃ - 0x80) * 0x40 + (b₄ - 0x80)) / 0x40 % 0x40 = b₃ := by
    omega
  have e4 : 0x80 + ((b₁ - 0xf0) * 0x40000 + (b₂ - 0x80) * 0x1000 +
      (b₃ - 0x80) * 0x40 + (b₄ - 0x80)) % 0x40 = b₄ := by
    omega
  rw [e1, e2, e3, e4]

lemma encodeChar_length_pos (c : Char) : 0 < (utf8EncodeChar c).length := by
  unfold utf8EncodeChar utf8EncodeNat
  split
  · simp
  · split
    · simp
    · split <;> simp

lemma decode1_encodeChar (c : Char) (rest : List Nat) :
    decode1 (utf8EncodeChar c ++ rest) = some (c, rest) := by
  have hv' : c.toNat < 0xd800 ∨ (0xdfff < c.toNat ∧ c.toNat < 0x110000) :=
    c.valid
  rw [utf8EncodeChar]
  generalize hn : c.toNat = n at hv'
  have hofn : Char.ofNat n = c := by rw [← hn, Char.ofNat_toNat]
  unfold utf8EncodeNat
  by_cases hA : n < 0x80
  · rw [if_pos hA]
    simp only [List.cons_append, List.nil_append, decode1_cons, if_pos hA,
      hofn]
  · rw [if_neg hA]
    by_cases hB : n < 0x800
    · rw [if_pos hB]
      simp only [List.cons_append, List.nil_append, decode1_cons,
        if_neg (show ¬ 0xc0 + n / 0x40 < 0x80 by omega),
        if_neg (show ¬ 0xc0 + n / 0x40 < 0xc2 by omega),
        if_pos (show 0xc0 + n / 0x40 < 0xe0 by omega)]
      rw [if_pos (show isCont (0x80 + n % 0x40) from ⟨by omega, by omega⟩)]
      have hval : (0xc0 + n / 0x40 - 0xc0) * 0x40 + (0x80 + n % 0x40 - 0x80)
          = n := by omega
      rw [hval, hofn]
    · rw [if_neg hB]
      by_cases hC : n < 0x10000
      · rw [if_pos hC]
        simp only [List.cons_append, List.nil_append, decode1_cons,
          if_neg (show ¬ 0xe0 + n / 0x1000 < 0x80 by omega),
          if_neg (show ¬ 0xe0 + n / 0x1000 < 0xc2 by omega),
          if_neg (show ¬ 0xe0 + n / 0x1000 < 0xe0 by omega),
          if_pos (show 0xe0 + n / 0x1000 < 0xf0 by omega)]
        rw [if_pos (show isCont (0x80 + n / 0x40 % 0x40) ∧
            isCont (0x80 + n % 0x40) ∧
            (0xe0 + n / 0x1000 = 0xe0 → 0xa0 ≤ 0x80 + n / 0x40 % 0x40) ∧
            (0xe0 + n / 0x1000 = 0xed → 0x80 + n / 0x40 % 0x40 < 0xa0) from
          ⟨⟨by omega, by omega⟩, ⟨by omega, by omega⟩,
            by intro h; omega, by intro h; omega⟩)]
        have hval : (0xe0 + n / 0x1000 - 0xe0) * 0x1000 +
            (0x80 + n / 0x40 % 0x40 - 0x80) * 0x40 +
            (0x80 + n % 0x40 - 0x80) = n := by omega
        rw [hval, hofn]
      · rw [if_neg hC]
        simp only [List.cons_append, List.nil_append, decode1_cons,
          if_neg (show ¬ 0xf0 + n / 0x40000 < 0x80 by omega),
          if_neg (show ¬ 0xf0 + n / 0x40000 < 0xc2 by omega),
          if_neg (show ¬ 0xf0 + n / 0x40000 < 0xe0 by omega),
          if_neg (show ¬ 0xf0 + n / 0x40000 < 0xf0 by omega),
          if_pos (show 0xf0 + n / 0x40000 < 0xf5 by omega)]
        rw [if_pos (show isCont (0x80 + n / 0x1000 % 0x40) ∧
            isCont (0x80 + n / 0x40 % 0x40) ∧ isCont (0x80 + n % 0x40) ∧
            (0xf0 + n / 0x40000 = 0xf0 → 0x90 ≤ 0x80 + n / 0x1000 % 0x40) ∧
            (0xf0 + n / 0x40000 = 0xf4 → 0x80 + n / 0x1000 % 0x40 < 0x90) from
          ⟨⟨by omega, by omega⟩, ⟨by omega, by omega⟩, ⟨by omega, by omega⟩,
            by intro h; omega, by intro h; omega⟩)]
        have hval : (0xf0 + n / 0x40000 - 0xf0) * 0x40000 +
            (0x80 + n / 0x1000 % 0x40 - 0x80) * 0x1000 +
            (0x80 + n / 0x40 % 0x40 - 0x80) * 0x40 +
            (0x80 + n % 0x40 - 0x80) = n := by omega
        rw [hval, hofn]

lemma decode1_sound (d : List Nat) (c : Char) (rest : List Nat)
    (h : decode1 d = some (c, rest)) : utf8EncodeChar c ++ rest = d := by
  rcases d with _ | ⟨b₁, t⟩
  · exact Option.noConfusion h
  rw [decode1_cons] at h
  by_cases hA : b₁ < 0x80
  · rw [if_pos hA] at h
    obtain ⟨rfl, rfl⟩ : Char.ofNat b₁ = c ∧ t = rest := by simpa using h
    rw [encodeChar_ofNat_ascii _ hA]
    rfl
  rw [if_neg hA] at h
  by_cases hB : b₁ < 0xc2
  · rw [if_pos hB] at h
    exact Option.noConfusion h
  rw [if_neg hB] at h
  by_cases hC : b₁ < 0xe0
  · rw [if_pos hC] at h
    rcases t with _ | ⟨b₂, t₂⟩
    · exact Option.noConfusion h
    dsimp only at h
    by_cases hc2 : isCont b₂
    · rw [if_pos hc2] at h
      obtain ⟨rfl, rfl⟩ :
          Char.ofNat ((b₁ - 0xc0) * 0x40 + (b₂ - 0x80)) = c ∧ t₂ = rest := by
        simpa using h
      rw [encodeChar_ofNat_two _ _ (by omega) hC hc2]
      rfl
    · rw [if_neg hc2] at h
      exact Option.noConfusion h
  rw [if_neg hC] at h
  by_cases hD : b₁ < 0xf0
  · rw [if_pos hD] at h
    rcases t with _ | ⟨b₂, _ | ⟨b₃, t₃⟩⟩
    · exact Option.noConfusion h
    · exact Option.noConfusion h
    dsimp only at h
    by_cases hg : isCont b₂ ∧ isCont b₃ ∧ (b₁ = 0xe0 → 0xa0 ≤ b₂) ∧
        (b₁ = 0xed → b₂ < 0xa0)
    · rw [if_pos hg] at h
      obtain ⟨hc₂, hc₃, he, hd'⟩ := hg
      obtain ⟨rfl, rfl⟩ :
          Char.ofNat ((b₁ - 0xe0) * 0x1000 + (b₂ - 0x80) * 0x40 +
            (b₃ - 0x80)) = c ∧ t₃ = rest := by
        simpa using h
      rw [encodeChar_ofNat_three _ _ _ (by omega) hD hc₂ hc₃ he hd']
      rfl
    · rw [if_neg hg] at h
      exact Option.noConfusion h
  rw [if_neg hD] at h
  by_cases hE : b₁ < 0xf5
  · rw [if_pos hE] at h
    rcases t with _ | ⟨b₂, _ | ⟨b₃, _ | ⟨b₄, t₄⟩⟩⟩
    · exact Option.noConfusion h
    · exact Option.noConfusion h
    · exact Option.noConfusion h
    dsimp only at h
    by_cases hg : isCont b₂ ∧ isCont b₃ ∧ isCont b₄ ∧
        (b₁ = 0xf0 → 0x90 ≤ b₂) ∧ (b₁ = 0xf4 → b₂ < 0x90)
    · rw [if_pos hg] at h
      obtain ⟨hc₂, hc₃, hc₄, he, hd'⟩ := hg
      obtain ⟨rfl, rfl⟩ :
          Char.ofNat ((b₁ - 0xf0) * 0x40000 + (b₂ - 0x80) * 0x1000 +
            (b₃ - 0x80) * 0x40 + (b₄ - 0x80)) = c ∧ t₄ = rest := by
        simpa using h
      rw [encodeChar_ofNat_four _ _ _ _ (by omega) hE hc₂ hc₃ hc₄ he hd']
      rfl
    · rw [if_neg hg] at h
      exact Option.noConfusion h
  rw [if_neg hE] at h
  exact Option.noConfusion h

lemma utf8DecodeFuel_encode (s : List Char) :
    ∀ fuel : Nat, (utf8Encode s).length ≤ fuel →
      utf8DecodeFuel fuel (utf8Encode s) = some s := by
  induction s with
  | nil =>
    intro fuel _
    cases fuel <;> rfl
  | cons c s ih =>
    intro fuel hlen
    rw [utf8Encode] at hlen ⊢
    have hpos : 0 < (utf8EncodeChar c).length := encodeChar_length_pos c
    have hlen' : (utf8Encode s).length ≤ fuel - 1 := by
      rw [List.length_append] at hlen
      omega
    rcases fuel with _ | fuel
    · exfalso
      rw [List.length_append] at hlen
      omega
    obtain ⟨b, eb, he⟩ : ∃ b eb, utf8EncodeChar c = b :: eb := by
      rcases hx : utf8EncodeChar c with _ | ⟨b, eb⟩
      · rw [hx] at hpos
        simp at hpos
      · exact ⟨b, eb, rfl⟩
    rw [he, List.cons_append, utf8DecodeFuel_succ_cons, ← List.cons_append,
      ← he, decode1_encodeChar]
    have ihf := ih fuel (by omega)
    simp [ihf]

/-- Decoding inverts encoding: every encoded character sequence decodes
back to itself. -/
lemma utf8Decode_encode (s : List Char) :
    utf8Decode (utf8Encode s) = some s :=
  utf8DecodeFuel_encode s _ le_rfl

lemma utf8DecodeFuel_sound (fuel : Nat) :
    ∀ (d : List Nat) (s : List Char),
      utf8DecodeFuel fuel d = some s → utf8Encode s = d := by
  induction fuel with
  | zero =>
    intro d s h
    rcases d with _ | ⟨b, t⟩
    · obtain rfl : [] = s := by simpa [utf8DecodeFuel] using h
      rfl
    · exact Option.noConfusion h
  | succ fuel ih =>
    intro d s h
    rcases d with _ | ⟨b, t⟩
    · obtain rfl : [] = s := by simpa [utf8DecodeFuel] using h
      rfl
    rw [utf8DecodeFuel_succ_cons] at h
    rcases hd : decode1 (b :: t) with _ | ⟨c, rest⟩
    · rw [hd] at h
      exact Option.noConfusion h
    rw [hd] at h
    obtain ⟨s', hs', rfl⟩ := Option.map_eq_some'.mp h
    rw [utf8Encode, ih rest s' hs']
    exact decode1_sound _ _ _ hd

/-- Decoding is sound: a successful decode means the input was exactly
the encoding of the result. -/
lemma utf8Encode_of_decode (d : List Nat) (s : List Char)
    (h : utf8Decode d = some s) : utf8Encode s = d :=
  utf8DecodeFuel_sound d.length d s h

/-! ## Claim about the string writer -/

/-- Claim C10: `StringWriter::write` fails exactly on byte slices that are
not valid UTF-8 (not the encoding of any character sequence); on valid
input it appends the decoded text to the accumulated string and returns
`Ok` with the full input length; on invalid input the accumulated
string is left unchanged. -/
theorem stringWriter_write_spec (w : StringWriter) (data : List Nat) :
    ((w.write data).2 = none ↔ ¬ Utf8Valid data) ∧
      (∀ s : List Char, utf8Encode s = data →
        w.write data = (⟨w.string ++ s⟩, some data.length)) ∧
      ((w.write data).2 = none → (w.write data).1 = w) := by
  have hok : ∀ s : List Char, utf8Encode s = data →
      w.write data = (⟨w.string ++ s⟩, some data.length) := by
    intro s hs
    subst hs
    unfold StringWriter.write
    rw [utf8Decode_encode]
  refine ⟨⟨?_, ?_⟩, hok, ?_⟩
  · intro h hv
    obtain ⟨s, hs⟩ := hv
    rw [hok s hs] at h
    exact Option.noConfusion h
  · intro hv
    rcases hd : utf8Decode data with _ | s
    · unfold StringWriter.write
      rw [hd]
    · exact absurd ⟨s, utf8Encode_of_decode data s hd⟩ hv
  · intro h
    unfold StringWriter.write at h ⊢
    rcases hd : utf8Decode data with _ | s
    · rfl
    · rw [hd] at h
      exact Option.noConfusion h

/-- Witness for C10: writing the bytes of `"foo"` into a fresh writer
succeeds, stores `"foo"` and reports 3 bytes written. -/
theorem stringWriter_write_spec_witness :
    StringWriter.new.write [102, 111, 111] =
      (⟨"foo".data⟩, some 3) :=
  (stringWriter_write_spec StringWriter.new [102, 111, 111]).2.1
    "foo".data (by decide)

end PrettyTableUtils
